import Mathlib

/-!
Verification of the text-matching core of `src/lib/search-utils.ts`:
the fuzzy-match predicate `fuzzyMatch`, the dynamic-programming edit
distance `levenshteinDistance`, and the relevance scorer
`calculateMatchScore`.

The embedding models JavaScript strings as Lean `String`s (lists of
characters), JavaScript `toLowerCase` as `Char.toLower` per character
(the inputs of interest are ASCII), `String.prototype.includes` as
contiguous-sublist containment, `trim` as removing leading and trailing
whitespace, and `split(/\s+/)` with its exact JavaScript semantics: runs
of whitespace separate fields, a leading or trailing run contributes an
empty field, and the split of the empty string is `[""]`.  Scores are
modelled as rationals; every score the code can produce is rational and
all weight arithmetic in the claims is exact.  The abbreviation table is
modelled as a finite association list over its own keys.
-/

namespace SearchUtils

/-- Whitespace test modelling the character class `\s` of the regular
expression `/\s+/` (restricted to the ASCII range used by this domain). -/
def jsWs (c : Char) : Bool := c.isWhitespace

/-- JavaScript `s.toLowerCase()`. -/
def jsToLower (s : String) : String := ⟨s.data.map Char.toLower⟩

/-- JavaScript `trim` on the character list: drop leading and trailing
whitespace. -/
def trimList (l : List Char) : List Char :=
  ((l.dropWhile jsWs).reverse.dropWhile jsWs).reverse

/-- JavaScript `s.trim()`. -/
def jsTrim (s : String) : String := ⟨trimList s.data⟩

/-- Does `s` start with `t`? (helper for substring containment). -/
def startsWithL : List Char → List Char → Bool
  | _, [] => true
  | [], _ :: _ => false
  | a :: as, b :: bs => a = b && startsWithL as bs

/-- Contiguous containment of `t` in `s`, the semantics of JavaScript
`s.includes(t)`. -/
def inclList : List Char → List Char → Bool
  | [], t => t.isEmpty
  | a :: s, t => startsWithL (a :: s) t || inclList s t

/-- JavaScript `s.includes(t)`. -/
def jsIncludes (s t : String) : Bool := inclList s.data t.data

/-- Worker for `split(/\s+/)`: `inWs` records whether the previous
character belonged to a whitespace run, `acc` holds the current field in
reverse. -/
def splitWsAux : List Char → Bool → List Char → List (List Char)
  | [], _, acc => [acc.reverse]
  | c :: cs, inWs, acc =>
    if jsWs c then
      if inWs then splitWsAux cs true acc
      else acc.reverse :: splitWsAux cs true []
    else splitWsAux cs false (c :: acc)

/-- JavaScript `s.split(/\s+/)`. -/
def jsSplitWs (s : String) : List String :=
  (splitWsAux s.data false []).map fun l => ⟨l⟩

/-- The dynamic-programming table of `levenshteinDistance` in
`search-utils.ts`, read entrywise: `dp a b i j` is the entry `dp[i][j]`
of the table the code fills for the strings `a` and `b`.  The base row
and column are `dp[i][0] = i` and `dp[0][j] = j`; the transition
compares `a[i-1]` with `b[j-1]` and otherwise takes
`1 + min(dp[i-1][j], dp[i][j-1], dp[i-1][j-1])`, exactly as in the
source. -/
def dp (a b : List Char) : Nat → Nat → Nat
  | i, 0 => i
  | 0, j => j
  | i + 1, j + 1 =>
    if a[i]? = b[j]? then dp a b i j
    else 1 + min (dp a b i (j + 1)) (min (dp a b (i + 1) j) (dp a b i j))
termination_by i j => (i, j)

/-- `levenshteinDistance` of `search-utils.ts`: the bottom-right entry
`dp[m][n]` of the table. -/
def levenshteinDistance (a b : String) : Nat :=
  dp a.data b.data a.data.length b.data.length

/-- The fixed abbreviation table of `search-utils.ts`, in source order. -/
def abbreviations : List (String × List String) :=
  [("maths", ["math", "mathematics"]),
   ("math", ["maths", "mathematics"]),
   ("sci", ["science"]),
   ("eng", ["english"]),
   ("bio", ["biology"]),
   ("chem", ["chemistry"]),
   ("phys", ["physics"]),
   ("lit", ["literature"]),
   ("hist", ["history"]),
   ("geo", ["geography"]),
   ("s1", ["senior 1"]),
   ("s2", ["senior 2"]),
   ("s3", ["senior 3"]),
   ("s4", ["senior 4"]),
   ("s5", ["senior 5"]),
   ("s6", ["senior 6"])]

/-- `fuzzyMatch` of `search-utils.ts`: exact substring, then forward
abbreviation, then reverse abbreviation, then the bounded edit-distance
comparison of whitespace-delimited words of length at least 4 whose
lengths differ by at most 1. -/
def fuzzyMatch (searchTerm targetText : String) : Bool :=
  let term := jsTrim (jsToLower searchTerm)
  let text := jsToLower targetText
  jsIncludes text term ||
  (match abbreviations.lookup term with
   | some expansions => expansions.any fun expansion => jsIncludes text expansion
   | none => false) ||
  abbreviations.any (fun entry => entry.2.contains term && jsIncludes text entry.1) ||
  (let words := jsSplitWs text
   let termWords := jsSplitWs term
   termWords.any fun termWord =>
     decide (4 ≤ termWord.length) &&
     words.any fun word =>
       (decide (((termWord.length : Int) - (word.length : Int)).natAbs ≤ 1) &&
        decide (4 ≤ word.length)) &&
       decide (levenshteinDistance termWord word ≤ 1))

/-- The substring and abbreviation stages of `fuzzyMatch` alone, written
after the spec's description of the short-term guard: a term all of
whose words are shorter than 4 characters is decided solely by these
rules, never by the edit-distance stage. -/
def fuzzyMatchSubstringAbbrev (searchTerm targetText : String) : Bool :=
  let term := jsTrim (jsToLower searchTerm)
  let text := jsToLower targetText
  jsIncludes text term ||
  (match abbreviations.lookup term with
   | some expansions => expansions.any fun expansion => jsIncludes text expansion
   | none => false) ||
  abbreviations.any (fun entry => entry.2.contains term && jsIncludes text entry.1)

/-- `calculateMatchScore` of `search-utils.ts`, with the floating-point
score modelled as a rational: exact/partial title (100/90), fractional
title word overlap (70 times matches/words), exact/partial subject (80/75),
description containment (40), and the fuzzy bonus (20) for queries of
length at least 4 against `title ++ " " ++ subject`. -/
def calculateMatchScore (query title description subject : String) : ℚ :=
  let queryLower := jsToLower query
  let titleScore : ℚ :=
    if jsToLower title = queryLower then 100
    else if jsIncludes (jsToLower title) queryLower then 90
    else 0
  let titleWords := jsSplitWs (jsToLower title)
  let queryWords := jsSplitWs queryLower
  let titleWordMatches :=
    (titleWords.filter fun w =>
      queryWords.any fun qw => jsIncludes w qw || jsIncludes qw w).length
  let wordScore : ℚ :=
    if 0 < titleWordMatches then
      70 * ((titleWordMatches : ℚ) / (titleWords.length : ℚ))
    else 0
  let subjectScore : ℚ :=
    if jsToLower subject = queryLower then 80
    else if jsIncludes (jsToLower subject) queryLower then 75
    else 0
  let descriptionScore : ℚ :=
    if jsIncludes (jsToLower description) queryLower then 40 else 0
  let fuzzyScore : ℚ :=
    if 4 ≤ queryLower.length ∧ fuzzyMatch query (title ++ " " ++ subject) then 20
    else 0
  titleScore + wordScore + subjectScore + descriptionScore + fuzzyScore

/-- The recurrence satisfied by the entries of the `dp` table, as a
recursive function: `dp i j` holds the distance between the length-`i`
and length-`j` prefixes, and its transition inspects the last characters
of those prefixes, so table entries are values of `lev` on the reversed
prefixes (`dp_eq_lev` below makes this exact). -/
def lev : List Char → List Char → Nat
  | [], ys => ys.length
  | x :: xs, [] => (x :: xs).length
  | x :: xs, y :: ys =>
    if x = y then lev xs ys
    else 1 + min (lev xs (y :: ys)) (min (lev (x :: xs) ys) (lev xs ys))
termination_by u v => u.length + v.length
decreasing_by all_goals (simp only [List.length_cons]; omega)

theorem lev_nil_right (u : List Char) : lev u [] = u.length := by
  cases u <;> simp [lev]

theorem lev_self (u : List Char) : lev u u = 0 := by
  induction u with
  | nil => simp [lev]
  | cons x xs ih => simp [lev, ih]

theorem lev_symm (u v : List Char) : lev u v = lev v u := by
  induction u, v using lev.induct with
  | case1 ys => simp [lev, lev_nil_right]
  | case2 x xs => simp [lev, lev_nil_right]
  | case3 xs y ys ih => simp [lev, ih]
  | case4 x xs y ys h ih1 ih2 ih3 =>
    have h2 : ¬ y = x := fun hh => h hh.symm
    simp only [lev, if_neg h, if_neg h2, ih1, ih2, ih3]
    omega

theorem lev_lip :
    ∀ n (u v : List Char), u.length + v.length ≤ n →
      (∀ x, lev (x :: u) v ≤ 1 + lev u v) ∧ (∀ y, lev u v ≤ 1 + lev u (y :: v)) := by
  intro n
  induction n with
  | zero =>
    intro u v h
    cases u <;> cases v <;> simp_all [lev]
  | succ n ih =>
    intro u v h
    constructor
    · intro x
      cases v with
      | nil => simp only [lev_nil_right, List.length_cons]; omega
      | cons y ys =>
        by_cases hxy : x = y
        · subst hxy
          have hD := (ih u ys (by simp at h; omega)).2 x
          calc lev (x :: u) (x :: ys) = lev u ys := by simp [lev]
            _ ≤ 1 + lev u (x :: ys) := hD
        · simp only [lev, if_neg hxy]
          omega
    · intro y
      cases u with
      | nil => simp only [lev, List.length_cons]; omega
      | cons x xs =>
        by_cases hxy : x = y
        · subst hxy
          have hD := (ih xs v (by simp at h; omega)).1 x
          calc lev (x :: xs) v ≤ 1 + lev xs v := hD
            _ = 1 + lev (x :: xs) (x :: v) := by simp [lev]
        · have h1 := (ih xs v (by simp at h; omega)).1 x
          have h2 := (ih xs v (by simp at h; omega)).2 y
          simp only [lev, if_neg hxy]
          omega

theorem lev_cons_le (x : Char) (u v : List Char) : lev (x :: u) v ≤ 1 + lev u v :=
  (lev_lip (u.length + v.length) u v le_rfl).1 x

theorem lev_le_cons_right (y : Char) (u v : List Char) : lev u v ≤ 1 + lev u (y :: v) :=
  (lev_lip (u.length + v.length) u v le_rfl).2 y

theorem lev_le_cons_left (x : Char) (u v : List Char) : lev u v ≤ 1 + lev (x :: u) v := by
  rw [lev_symm u v, lev_symm (x :: u) v]
  exact lev_le_cons_right x v u

theorem lev_cons_right_le (y : Char) (u v : List Char) : lev u (y :: v) ≤ 1 + lev u v := by
  rw [lev_symm u (y :: v), lev_symm u v]
  exact lev_cons_le y v u

theorem lev_le_sum (u v : List Char) : lev u v ≤ u.length + v.length := by
  induction u, v using lev.induct with
  | case1 ys => simp [lev]
  | case2 x xs => simp [lev]
  | case3 xs y ys ih => simp [lev]; omega
  | case4 x xs y ys h ih1 ih2 ih3 =>
    simp only [lev, if_neg h, List.length_cons] at ih1 ih2 ih3 ⊢
    omega

theorem lev_length_gap (u v : List Char) :
    v.length ≤ u.length + lev u v ∧ u.length ≤ v.length + lev u v := by
  induction u, v using lev.induct with
  | case1 ys => simp [lev]
  | case2 x xs => simp [lev]
  | case3 xs y ys ih => simp [lev]; omega
  | case4 x xs y ys h ih1 ih2 ih3 =>
    simp only [lev, if_neg h, List.length_cons] at ih1 ih2 ih3 ⊢
    omega

theorem lev_cons_cons (x y : Char) (u v : List Char) :
    lev (x :: u) (y :: v) =
      if x = y then lev u v
      else 1 + min (lev u (y :: v)) (min (lev (x :: u) v) (lev u v)) := by
  simp only [lev]

theorem lev_triangle (u v w : List Char) : lev u w ≤ lev u v + lev v w := by
  generalize hn : u.length + v.length + w.length = n
  induction n using Nat.strong_induction_on generalizing u v w with
  | _ n ih =>
  subst hn
  have IH : ∀ u' v' w' : List Char,
      u'.length + v'.length + w'.length < u.length + v.length + w.length →
      lev u' w' ≤ lev u' v' + lev v' w' := fun u' v' w' hlt => ih _ hlt u' v' w' rfl
  match u, v, w with
  | u, [], w =>
    have := lev_le_sum u w
    simp only [lev_nil_right, lev]
    omega
  | [], y :: v, w =>
    have h1 := (lev_length_gap (y :: v) w).1
    simp only [lev, List.length_cons] at h1 ⊢
    omega
  | x :: u, y :: v, [] =>
    have h1 := (lev_length_gap (x :: u) (y :: v)).2
    simp only [lev_nil_right, List.length_cons] at h1 ⊢
    omega
  | x :: u, y :: v, z :: w =>
    have F1 := IH u (y :: v) (z :: w) (by simp only [List.length_cons]; omega)
    have F2 := IH (x :: u) v (z :: w) (by simp only [List.length_cons]; omega)
    have F3 := IH u v (z :: w) (by simp only [List.length_cons]; omega)
    have F4 := IH (x :: u) (y :: v) w (by simp only [List.length_cons]; omega)
    have F5 := IH u v w (by simp only [List.length_cons]; omega)
    have F6 := IH u (y :: v) w (by simp only [List.length_cons]; omega)
    have F7 := IH (x :: u) v w (by simp only [List.length_cons]; omega)
    have G2 := lev_cons_le x u w
    have G5 := lev_cons_le y v w
    have H1 := lev_le_cons_left x u w
    have H2 := lev_le_cons_left y v w
    have K1 := lev_cons_right_le z u w
    have K2 := lev_cons_right_le z v w
    have K3 := lev_cons_right_le y u v
    have L1 := lev_le_cons_right z u w
    have L2 := lev_le_cons_right z v w
    have L3 := lev_le_cons_right y u v
    simp only [lev_cons_cons] at F1 F2 F4 ⊢
    split_ifs at F1 F2 F4 ⊢ <;> first | omega | (exfalso; simp_all)

/-- One single-character edit, at an arbitrary position: insertion,
deletion, or substitution of one character. -/
inductive EditStep : List Char → List Char → Prop where
  | insert (l r : List Char) (c : Char) : EditStep (l ++ r) (l ++ c :: r)
  | delete (l r : List Char) (c : Char) : EditStep (l ++ c :: r) (l ++ r)
  | substitute (l r : List Char) (c d : Char) : EditStep (l ++ c :: r) (l ++ d :: r)

/-- `EditSeq n u v` holds when `v` is reachable from `u` by exactly `n`
single-character edits. -/
inductive EditSeq : Nat → List Char → List Char → Prop where
  | refl (u : List Char) : EditSeq 0 u u
  | step {n : Nat} {u v w : List Char} :
      EditStep u v → EditSeq n v w → EditSeq (n + 1) u w

theorem EditSeq.append {m n : Nat} {u v w : List Char}
    (h1 : EditSeq m u v) (h2 : EditSeq n v w) : EditSeq (m + n) u w := by
  induction h1 with
  | refl u => simpa using h2
  | step s _ ih =>
    have h3 := EditSeq.step s (ih h2)
    have harith : ∀ k : Nat, k + n + 1 = k + 1 + n := by omega
    rw [← harith]
    exact h3

theorem estep_cons {u v : List Char} (x : Char) (h : EditStep u v) :
    EditStep (x :: u) (x :: v) := by
  cases h with
  | insert l r c => exact EditStep.insert (x :: l) r c
  | delete l r c => exact EditStep.delete (x :: l) r c
  | substitute l r c d => exact EditStep.substitute (x :: l) r c d

theorem eseq_cons {n : Nat} {u v : List Char} (x : Char) (h : EditSeq n u v) :
    EditSeq n (x :: u) (x :: v) := by
  induction h with
  | refl u => exact EditSeq.refl _
  | step s _ ih => exact EditSeq.step (estep_cons x s) ih

theorem eseq_nil_to (v : List Char) : EditSeq v.length [] v := by
  induction v with
  | nil => exact EditSeq.refl _
  | cons y ys ih =>
    exact EditSeq.step (EditStep.insert [] [] y) (eseq_cons y ih)

theorem eseq_to_nil (u : List Char) : EditSeq u.length u [] := by
  induction u with
  | nil => exact EditSeq.refl _
  | cons x xs ih =>
    exact EditSeq.step (EditStep.delete [] xs x) ih

/-- An edit script of length `lev u v` always exists. -/
theorem eseq_of_lev (u v : List Char) : EditSeq (lev u v) u v := by
  induction u, v using lev.induct with
  | case1 ys =>
    have := eseq_nil_to ys
    simpa [lev] using this
  | case2 x xs =>
    have := eseq_to_nil (x :: xs)
    simpa [lev] using this
  | case3 xs y ys ih =>
    rw [show lev (y :: xs) (y :: ys) = lev xs ys from by simp [lev]]
    exact eseq_cons y ih
  | case4 x xs y ys h ih1 ih2 ih3 =>
    rw [lev_cons_cons, if_neg h]
    rcases min_choice (lev xs (y :: ys)) (min (lev (x :: xs) ys) (lev xs ys)) with h1 | h1 <;>
      rw [h1]
    · have h2 := EditSeq.step (EditStep.delete [] xs x) ih1
      rwa [Nat.add_comm] at h2
    · rcases min_choice (lev (x :: xs) ys) (lev xs ys) with h2 | h2 <;> rw [h2]
      · have tail : EditSeq 1 ys (y :: ys) :=
          EditSeq.step (EditStep.insert [] ys y) (EditSeq.refl _)
        have h3 := ih2.append tail
        rwa [Nat.add_comm] at h3
      · have h3 := EditSeq.step (EditStep.substitute [] xs x y) (eseq_cons y ih3)
        rwa [Nat.add_comm] at h3

theorem lev_append_same (l u v : List Char) : lev (l ++ u) (l ++ v) = lev u v := by
  induction l with
  | nil => rfl
  | cons a l ih => simpa [lev] using ih

theorem lev_ins_head (r : List Char) : ∀ c, lev r (c :: r) ≤ 1 := by
  induction r with
  | nil => intro c; simp [lev]
  | cons x r ih =>
    intro c
    rw [lev_cons_cons]
    split_ifs with h
    · exact ih x
    · have h0 := lev_self (x :: r)
      omega

theorem lev_subst_head (c d : Char) (r : List Char) : lev (c :: r) (d :: r) ≤ 1 := by
  rw [lev_cons_cons]
  split_ifs with h
  · simp [lev_self]
  · have h0 := lev_self r
    omega

/-- A single edit moves `lev` by at most one. -/
theorem estep_lev {u v : List Char} (h : EditStep u v) : lev u v ≤ 1 := by
  cases h with
  | insert l r c =>
    rw [lev_append_same]
    exact lev_ins_head r c
  | delete l r c =>
    rw [lev_symm, lev_append_same]
    exact lev_ins_head r c
  | substitute l r c d =>
    rw [lev_append_same]
    exact lev_subst_head c d r

/-- `lev` is a lower bound on the length of any edit script. -/
theorem lev_le_of_eseq {n : Nat} {u v : List Char} (h : EditSeq n u v) : lev u v ≤ n := by
  induction h with
  | refl u => simp [lev_self]
  | step s _ ih =>
    rename_i n' u' v' w' _
    have h1 := lev_triangle u' v' w'
    have h2 := estep_lev s
    omega

theorem estep_reverse {u v : List Char} (h : EditStep u v) :
    EditStep u.reverse v.reverse := by
  cases h with
  | insert l r c =>
    have h1 := EditStep.insert r.reverse l.reverse c
    simpa [List.reverse_append] using h1
  | delete l r c =>
    have h1 := EditStep.delete r.reverse l.reverse c
    simpa [List.reverse_append] using h1
  | substitute l r c d =>
    have h1 := EditStep.substitute r.reverse l.reverse c d
    simpa [List.reverse_append] using h1

theorem eseq_reverse {n : Nat} {u v : List Char} (h : EditSeq n u v) :
    EditSeq n u.reverse v.reverse := by
  induction h with
  | refl u => exact EditSeq.refl _
  | step s _ ih => exact EditSeq.step (estep_reverse s) ih

/-- The table entry `dp[i][j]` is the recursive distance of the reversed
length-`i` and length-`j` prefixes. -/
theorem dp_eq_lev (a b : List Char) :
    ∀ i j, i ≤ a.length → j ≤ b.length →
      dp a b i j = lev ((a.take i).reverse) ((b.take j).reverse) := by
  intro i j
  generalize hn : i + j = n
  induction n using Nat.strong_induction_on generalizing i j with
  | _ n ih =>
  subst hn
  have IH : ∀ i' j', i' + j' < i + j → i' ≤ a.length → j' ≤ b.length →
      dp a b i' j' = lev ((a.take i').reverse) ((b.take j').reverse) :=
    fun i' j' hlt => ih _ hlt i' j' rfl
  intro hi hj
  match i, j with
  | i, 0 =>
    simp only [dp, List.take_zero, List.reverse_nil, lev_nil_right,
      List.length_reverse, List.length_take]
    omega
  | 0, j + 1 =>
    simp only [dp, List.take_zero, List.reverse_nil, lev,
      List.length_reverse, List.length_take]
    omega
  | i + 1, j + 1 =>
    have hia : i < a.length := by omega
    have hjb : j < b.length := by omega
    have hx : a[i]? = some a[i] := List.getElem?_eq_getElem hia
    have hy : b[j]? = some b[j] := List.getElem?_eq_getElem hjb
    have ha : (a.take (i + 1)).reverse = a[i] :: (a.take i).reverse := by
      rw [List.take_succ, hx]
      simp
    have hb2 : (b.take (j + 1)).reverse = b[j] :: (b.take j).reverse := by
      rw [List.take_succ, hy]
      simp
    have e1 := IH i j (by omega) (by omega) (by omega)
    have e2 := IH i (j + 1) (by omega) (by omega) (by omega)
    have e3 := IH (i + 1) j (by omega) (by omega) (by omega)
    rw [hb2] at e2
    rw [ha] at e3
    rw [show dp a b (i + 1) (j + 1) =
        if a[i]? = b[j]? then dp a b i j
        else 1 + min (dp a b i (j + 1)) (min (dp a b (i + 1) j) (dp a b i j)) from by
      simp [dp]]
    rw [ha, hb2, lev_cons_cons, hx, hy, e1, e2, e3]
    simp

/-- The code's bottom-right table entry is `lev` of the reversed inputs. -/
theorem levenshteinDistance_eq_lev (a b : String) :
    levenshteinDistance a b = lev a.data.reverse b.data.reverse := by
  unfold levenshteinDistance
  rw [dp_eq_lev a.data b.data _ _ le_rfl le_rfl, List.take_length, List.take_length]

theorem splitWsAux_ne_nil : ∀ (l : List Char) (b : Bool) (acc : List Char),
    splitWsAux l b acc ≠ [] := by
  intro l
  induction l with
  | nil => intro b acc; simp [splitWsAux]
  | cons c cs ih =>
    intro b acc
    simp only [splitWsAux]
    split_ifs <;> simp [ih]

theorem jsSplitWs_ne_nil (s : String) : jsSplitWs s ≠ [] := by
  simp [jsSplitWs, splitWsAux_ne_nil]

theorem inclList_nil_t (s : List Char) : inclList s [] = true := by
  cases s <;> simp [inclList, startsWithL]

theorem startsWithL_append (t q : List Char) : startsWithL (t ++ q) t = true := by
  induction t with
  | nil => cases q <;> simp [startsWithL]
  | cons x t ih => simp [startsWithL, ih]

theorem inclList_of_starts : ∀ s t : List Char, startsWithL s t = true → inclList s t = true := by
  intro s t h
  cases s with
  | nil => cases t <;> simp_all [startsWithL, inclList]
  | cons a s => simp [inclList, h]

theorem inclList_append (p t q : List Char) : inclList (p ++ t ++ q) t = true := by
  induction p with
  | nil =>
    apply inclList_of_starts
    exact startsWithL_append t q
  | cons c p ih =>
    simp only [List.cons_append, inclList, Bool.or_eq_true]
    exact Or.inr ih

theorem trimList_decomp (l : List Char) : ∃ p q, p ++ trimList l ++ q = l := by
  obtain ⟨p, hp⟩ := List.dropWhile_suffix (l := l) jsWs
  obtain ⟨r, hr⟩ := List.dropWhile_suffix (l := (l.dropWhile jsWs).reverse) jsWs
  refine ⟨p, r.reverse, ?_⟩
  have h1 : trimList l ++ r.reverse = l.dropWhile jsWs := by
    show ((l.dropWhile jsWs).reverse.dropWhile jsWs).reverse ++ r.reverse = l.dropWhile jsWs
    rw [← List.reverse_append, hr, List.reverse_reverse]
  rw [List.append_assoc, h1, hp]

theorem fuzzyMatch_self_incl (s : String) :
    jsIncludes (jsToLower s) (jsTrim (jsToLower s)) = true := by
  show inclList (jsToLower s).data (trimList (jsToLower s).data) = true
  obtain ⟨p, q, hpq⟩ := trimList_decomp (jsToLower s).data
  nth_rewrite 1 [← hpq]
  exact inclList_append p _ q

theorem fuzzyMatch_self (s : String) : fuzzyMatch s s = true := by
  simp [fuzzyMatch, fuzzyMatch_self_incl]

theorem jsWs_toLower {c : Char} (h : jsWs c = true) : jsWs (Char.toLower c) = true := by
  simp only [jsWs, Char.isWhitespace, Bool.or_eq_true, decide_eq_true_eq] at h ⊢
  rcases h with ((rfl | rfl) | rfl) | rfl <;> decide

theorem trimList_ws {l : List Char} (h : ∀ c ∈ l, jsWs c = true) : trimList l = [] := by
  unfold trimList
  have h1 : l.dropWhile jsWs = [] := by
    rw [List.dropWhile_eq_nil_iff]
    exact fun c hc => h c hc
  simp [h1]

theorem fuzzyMatch_ws_term (s t : String) (h : ∀ c ∈ s.data, jsWs c = true) :
    fuzzyMatch s t = true := by
  have hterm : (jsTrim (jsToLower s)).data = [] := by
    show trimList (jsToLower s).data = []
    apply trimList_ws
    intro c hc
    simp only [jsToLower, List.mem_map] at hc
    obtain ⟨c0, hc0, rfl⟩ := hc
    exact jsWs_toLower (h c0 hc0)
  have hincl : jsIncludes (jsToLower t) (jsTrim (jsToLower s)) = true := by
    show inclList (jsToLower t).data (jsTrim (jsToLower s)).data = true
    rw [hterm]
    exact inclList_nil_t _
  simp [fuzzyMatch, hincl]

theorem fuzzyMatch_short_words (s t : String)
    (h : ∀ w ∈ jsSplitWs (jsTrim (jsToLower s)), w.length < 4) :
    fuzzyMatch s t = fuzzyMatchSubstringAbbrev s t := by
  have hD : ((jsSplitWs (jsTrim (jsToLower s))).any fun termWord =>
      decide (4 ≤ termWord.length) &&
      (jsSplitWs (jsToLower t)).any fun word =>
        (decide (((termWord.length : Int) - (word.length : Int)).natAbs ≤ 1) &&
         decide (4 ≤ word.length)) &&
        decide (levenshteinDistance termWord word ≤ 1)) = false := by
    rw [List.any_eq_false]
    intro w hw
    have hlt := h w hw
    simp only [Bool.and_eq_true, decide_eq_true_eq, not_and]
    intro h4
    omega
  simp only [fuzzyMatch, fuzzyMatchSubstringAbbrev, hD, Bool.or_false]

set_option maxHeartbeats 1200000 in
theorem calculateMatchScore_bounds (query title description subject : String) :
    0 ≤ calculateMatchScore query title description subject ∧
      calculateMatchScore query title description subject ≤ 310 := by
  have hk : 0 < ((jsSplitWs (jsToLower title)).length : ℚ) := by
    have h := List.length_pos.mpr (jsSplitWs_ne_nil (jsToLower title))
    exact_mod_cast h
  have hmk : ((List.filter (fun w => (jsSplitWs (jsToLower query)).any fun qw =>
        jsIncludes w qw || jsIncludes qw w) (jsSplitWs (jsToLower title))).length : ℚ) ≤
      ((jsSplitWs (jsToLower title)).length : ℚ) := by
    exact_mod_cast List.length_filter_le _ _
  have hdiv0 : (0:ℚ) ≤ ((List.filter (fun w => (jsSplitWs (jsToLower query)).any fun qw =>
        jsIncludes w qw || jsIncludes qw w) (jsSplitWs (jsToLower title))).length : ℚ) /
      ((jsSplitWs (jsToLower title)).length : ℚ) := by
    apply div_nonneg _ (le_of_lt hk)
    positivity
  have hdiv1 : ((List.filter (fun w => (jsSplitWs (jsToLower query)).any fun qw =>
        jsIncludes w qw || jsIncludes qw w) (jsSplitWs (jsToLower title))).length : ℚ) /
      ((jsSplitWs (jsToLower title)).length : ℚ) ≤ 1 :=
    (div_le_one hk).mpr hmk
  simp only [calculateMatchScore]
  constructor <;> (split_ifs <;> first | (norm_num; done) | linarith [hdiv0, hdiv1])

theorem calculateMatchScore_empty_record (query : String)
    (hq : (jsToLower query).data ≠ [])
    (hfz : ¬(4 ≤ (jsToLower query).length ∧ fuzzyMatch query " " = true)) :
    calculateMatchScore query "" "" "" = 70 := by
  have hA : ¬(jsToLower "" = jsToLower query) := by
    intro h
    apply hq
    rw [← h]
    rfl
  have hB : jsIncludes (jsToLower "") (jsToLower query) = false := by
    show inclList (jsToLower "").data (jsToLower query).data = false
    obtain ⟨c, cs, hcs⟩ : ∃ c cs, (jsToLower query).data = c :: cs := by
      cases h : (jsToLower query).data with
      | nil => exact absurd h hq
      | cons c cs => exact ⟨c, cs, rfl⟩
    have hnil : (jsToLower "").data = [] := rfl
    rw [hnil, hcs]
    rfl
  have hsplit : jsSplitWs (jsToLower "") = [""] := rfl
  have hanyq : ((jsSplitWs (jsToLower query)).any fun qw =>
      jsIncludes ("" : String) qw || jsIncludes qw "") = true := by
    obtain ⟨qw, hqw⟩ := List.exists_mem_of_ne_nil _ (jsSplitWs_ne_nil (jsToLower query))
    rw [List.any_eq_true]
    refine ⟨qw, hqw, ?_⟩
    have h1 : jsIncludes qw "" = true := inclList_nil_t qw.data
    simp [h1]
  have hfilter : (List.filter (fun w => (jsSplitWs (jsToLower query)).any fun qw =>
      jsIncludes w qw || jsIncludes qw w) ([""] : List String)).length = 1 := by
    simp [List.filter, hanyq]
  simp only [calculateMatchScore, hsplit]
  simp [hA, hB, hfilter]
  intro h4
  cases hcase : fuzzyMatch query " " with
  | false => rfl
  | true => exact absurd ⟨h4, hcase⟩ hfz

/-- Claim C1 (counterexample): the query "zzzz" hits none of the
exact/partial/description/fuzzy rules against three empty record
fields, yet `calculateMatchScore "zzzz" "" "" ""` is 70, not the 0 the
claim asserts: JavaScript splits the empty title into the single empty
word `""`, which is a substring of every query word, so the word-overlap
rule contributes its full 70 points. -/
theorem claim1_counterexample :
    calculateMatchScore "zzzz" "" "" "" = 70 ∧ calculateMatchScore "zzzz" "" "" "" ≠ 0 := by
  have h := calculateMatchScore_empty_record "zzzz" (by decide) (by decide)
  refine ⟨h, ?_⟩
  rw [h]
  norm_num

/-- Claim C1 (amended): for every query whose lowercase form is nonempty
(so the exact, partial, and description rules all fail against empty
fields) and which earns no fuzzy bonus against the glued text `" "`,
`calculateMatchScore query "" "" ""` equals 70, not 0: there is no
division-by-zero fault, but the split of the empty title is `[""]` and
the empty word is contained in every query word, so the word-overlap
rule contributes `70 * (1/1)`. -/
theorem claim1_amended_zero_floor (query : String)
    (hq : (jsToLower query).data ≠ [])
    (hfz : ¬(4 ≤ (jsToLower query).length ∧ fuzzyMatch query " " = true)) :
    calculateMatchScore query "" "" "" = 70 :=
  calculateMatchScore_empty_record query hq hfz

/-- Witness for the amended claim C1 at the concrete query "zzzz". -/
theorem claim1_amended_zero_floor_witness : calculateMatchScore "zzzz" "" "" "" = 70 :=
  claim1_amended_zero_floor "zzzz" (by decide) (by decide)

/-- Claim C2: `levenshteinDistance a b` is the minimum number of
single-character insertions, deletions, or substitutions transforming
`a` into `b`: an edit script of exactly that length exists, and no
shorter script does; in particular
`levenshteinDistance "kitten" "sitting" = 3`. -/
theorem claim2_levenshtein_min_edit :
    (∀ a b : String,
      EditSeq (levenshteinDistance a b) a.data b.data ∧
        ∀ n, EditSeq n a.data b.data → levenshteinDistance a b ≤ n) ∧
    levenshteinDistance "kitten" "sitting" = 3 := by
  constructor
  · intro a b
    constructor
    · have h1 := eseq_of_lev a.data.reverse b.data.reverse
      rw [← levenshteinDistance_eq_lev] at h1
      have h2 := eseq_reverse h1
      simpa using h2
    · intro n hn
      rw [levenshteinDistance_eq_lev]
      exact lev_le_of_eseq (eseq_reverse hn)
  · have hk : ("kitten" : String).data.reverse = ['n', 'e', 't', 't', 'i', 'k'] := by decide
    have hs : ("sitting" : String).data.reverse = ['g', 'n', 'i', 't', 't', 'i', 's'] := by
      decide
    rw [levenshteinDistance_eq_lev, hk, hs]
    simp [lev]

/-- Witness for claim C2: the minimality half applied at the concrete
strings "ab" and "b" with a one-step deletion script. -/
theorem claim2_levenshtein_min_edit_witness : levenshteinDistance "ab" "b" ≤ 1 :=
  (claim2_levenshtein_min_edit.1 "ab" "b").2 1
    (EditSeq.step (EditStep.delete [] ['b'] 'a') (EditSeq.refl _))

/-- Claim C3: `calculateMatchScore "maths" "Mathematics 101"
"intro course" "Maths"` is exactly 100; the subject matches exactly
(lowercase "maths" = "maths", +80) and the fuzzy bonus fires
(`fuzzyMatch "maths" "Mathematics 101 Maths"` succeeds by substring,
+20), while the title rules and word overlap contribute 0. -/
theorem claim3_example_score :
    calculateMatchScore "maths" "Mathematics 101" "intro course" "Maths" = 100 ∧
      jsToLower "Maths" = jsToLower "maths" ∧
      fuzzyMatch "maths" ("Mathematics 101" ++ " " ++ "Maths") = true := by
  refine ⟨?_, by decide, by decide⟩
  simp +decide [calculateMatchScore]
  norm_num

/-- Claim C4: for every query, title, description and subject, the score
is a non-negative rational bounded by 310 = 100 + 70 + 80 + 40 + 20. -/
theorem claim4_score_bounds (query title description subject : String) :
    0 ≤ calculateMatchScore query title description subject ∧
      calculateMatchScore query title description subject ≤ 310 :=
  calculateMatchScore_bounds query title description subject

/-- Claim C5: the abbreviation table makes "math" and "maths"
interchangeable: `fuzzyMatch "maths" "I love math"` and
`fuzzyMatch "math" "I love maths"` are both true. -/
theorem claim5_abbreviation_symmetry :
    fuzzyMatch "maths" "I love math" = true ∧ fuzzyMatch "math" "I love maths" = true :=
  ⟨by decide, by decide⟩

/-- Claim C6: when every whitespace-delimited word of the normalized
search term is shorter than 4 characters, the edit-distance stage of
`fuzzyMatch` never fires, so the result coincides with the substring
and abbreviation stages alone; in particular `fuzzyMatch "zz" "xyz"` is
false and `fuzzyMatch "ab" "abc"` is true, the latter by substring
containment. -/
theorem claim6_short_term_guard :
    (∀ s t : String, (∀ w ∈ jsSplitWs (jsTrim (jsToLower s)), w.length < 4) →
      fuzzyMatch s t = fuzzyMatchSubstringAbbrev s t) ∧
    fuzzyMatch "zz" "xyz" = false ∧
    fuzzyMatch "ab" "abc" = true ∧
    jsIncludes (jsToLower "abc") (jsTrim (jsToLower "ab")) = true :=
  ⟨fuzzyMatch_short_words, by decide, by decide, by decide⟩

/-- Witness for claim C6's universally quantified part at the concrete
term "zz" and target "xyz". -/
theorem claim6_short_term_guard_witness :
    fuzzyMatch "zz" "xyz" = fuzzyMatchSubstringAbbrev "zz" "xyz" :=
  claim6_short_term_guard.1 "zz" "xyz" (by decide)

/-- Claim C7: `levenshteinDistance` is symmetric. -/
theorem claim7_symmetric (a b : String) :
    levenshteinDistance a b = levenshteinDistance b a := by
  rw [levenshteinDistance_eq_lev, levenshteinDistance_eq_lev, lev_symm]

/-- Claim C8: `levenshteinDistance` satisfies the triangle inequality. -/
theorem claim8_triangle (a b c : String) :
    levenshteinDistance a c ≤ levenshteinDistance a b + levenshteinDistance b c := by
  rw [levenshteinDistance_eq_lev, levenshteinDistance_eq_lev, levenshteinDistance_eq_lev]
  exact lev_triangle a.data.reverse b.data.reverse c.data.reverse

/-- Claim C9: `fuzzyMatch s s` is true for every nonempty `s`, already
at the exact substring rule: the trimmed lowercased term is contained
in the lowercased text. -/
theorem claim9_reflexive (s : String) (h : s ≠ "") :
    fuzzyMatch s s = true ∧ jsIncludes (jsToLower s) (jsTrim (jsToLower s)) = true :=
  ⟨fuzzyMatch_self s, fuzzyMatch_self_incl s⟩

/-- Witness for claim C9 at the concrete string "a". -/
theorem claim9_reflexive_witness :
    fuzzyMatch "a" "a" = true ∧ jsIncludes (jsToLower "a") (jsTrim (jsToLower "a")) = true :=
  claim9_reflexive "a" (by decide)

/-- Claim C10: a search term that is empty or all whitespace matches
every target text: its normalized form is the empty string, which is a
substring of everything, so the exact substring rule fires. -/
theorem claim10_whitespace_term (s t : String) (h : ∀ c ∈ s.data, jsWs c = true) :
    fuzzyMatch s t = true :=
  fuzzyMatch_ws_term s t h

/-- Witness for claim C10 at the concrete all-whitespace term " " and
target "xyz". -/
theorem claim10_whitespace_term_witness : fuzzyMatch " " "xyz" = true :=
  claim10_whitespace_term " " "xyz" (by decide)

end SearchUtils
